import Mathlib

/-!
Verification of the `reincarnate` data.win format decoders
(`crates/formats/datawin/game_maker_data.py`, `crates/formats/datawin/gml_bytecode.py`).

Bytes are modelled as natural numbers (each in `[0, 256)` in any well-formed
buffer); buffers are `List Nat`. Little-endian multi-byte reads, the container
chunk walk, the GML bytecode instruction loop and the `gm_string` reader are
translated directly from the source.  Operations the repository performs
outside these two generated files (PE-envelope scanning, pointer-list entry
resolution, shared-blob gap computation, push-operand consumption, branch
sign extension) are modelled from the specification and are marked
`Modelled from the spec:` in their doc comments.
-/

/-- Error kinds of the parser, following §7 of the specification:
`truncated` (read past end), `badMagic` (FORM missing / non-ASCII tag),
`invalidPointer` (pointer-list offset zero or out of bounds),
`malformedString` (gm_string terminator mismatch), `badUtf8`
(gm_string character bytes rejected by the strict UTF-8 decoder). -/
inductive PErr where
  | truncated
  | badMagic
  | invalidPointer
  | malformedString
  | badUtf8
deriving DecidableEq, Repr

deriving instance DecidableEq for Except

/-- Little-endian 32-bit value of four bytes (`read_u4le`). -/
def le32 (a b c d : Nat) : Nat := a + 256 * b + 65536 * c + 16777216 * d

/-- Little-endian 16-bit value of two bytes (`read_u2le`). -/
def le16 (a b : Nat) : Nat := a + 256 * b

/-- The four bytes of a 32-bit word in little-endian order. -/
def u32Bytes (w : Nat) : List Nat :=
  [w % 256, w / 256 % 256, w / 65536 % 256, w / 16777216 % 256]

theorem le32_u32Bytes (w : Nat) (h : w < 4294967296) :
    le32 (w % 256) (w / 256 % 256) (w / 65536 % 256) (w / 16777216 % 256) = w := by
  unfold le32
  omega

/-- Opcode field: high byte of the instruction word (`word >> 24 & 0xFF`). -/
def opcodeOf (w : Nat) : Nat := w / 16777216 % 256

/-- Primary type nibble (`word >> 16 & 0xF`). -/
def type1Of (w : Nat) : Nat := w / 65536 % 16

/-- Secondary type nibble (`word >> 20 & 0xF`). -/
def type2Of (w : Nat) : Nat := w / 1048576 % 16

/-- Low 16 bits of the instruction word (`word & 0xFFFF`). -/
def val16Of (w : Nat) : Nat := w % 65536

/-- Raw 23-bit branch offset (`GmlInstruction.branch_offset_raw`:
`word & 8388607`). -/
def branch_offset_raw (w : Nat) : Nat := w % 8388608

/-- Number of extra 32-bit operand words the generated v15+ instruction reader
consumes after the instruction word, by `GmlInstruction._read` dispatch:
`BreakBody` reads one word when `type1 == int32` (opcode 255 = brk),
`CallBody` (opcode 217) and `PopBody` (opcode 69) read one word, and every
other body type (`DupBody`, `PushBody`, `PushIBody`, `EmptyBody`) reads zero
bytes. -/
def extraWords (w : Nat) : Nat :=
  if opcodeOf w = 255 then (if type1Of w = 2 then 1 else 0)
  else if opcodeOf w = 217 then 1
  else if opcodeOf w = 69 then 1
  else 0

theorem extraWords_le_one (w : Nat) : extraWords w ≤ 1 := by
  unfold extraWords
  repeat' split
  all_goals omega

/-- One decoded GML VM instruction: the 32-bit instruction word and, when the
opcode's body consumes one, the raw 32-bit extra operand word (the `Call`
function id, the `Pop` variable-ref word or the `Brk` int32 extra). -/
structure GmlInstruction where
  word : Nat
  extra : Option Nat
deriving DecidableEq, Repr

/-- Read a single instruction from the byte stream: one 32-bit LE word, then
the extra words dictated by `extraWords` (translation of
`GmlInstruction._read` with the generated body readers).  Returns `none` when
the stream ends inside the instruction. -/
def decodeInstr : List Nat → Option (GmlInstruction × List Nat)
  | a :: b :: c :: d :: r =>
    let w := le32 a b c d
    if extraWords w = 0 then some (⟨w, none⟩, r)
    else
      match r with
      | e :: f :: g :: h :: r2 => some (⟨w, some (le32 e f g h)⟩, r2)
      | _ => none
  | _ => none

/-- Fuel-indexed instruction loop (translation of `GmlBytecode._read`:
`while not eof: append one instruction`).  Returns the instructions decoded so
far together with `some truncated` when the stream ends inside an instruction
(Kaitai raises an EOF error there), `none` otherwise.  The fuel only bounds
the recursion; `decodeAll` supplies enough for it never to run out. -/
def decodeAllF : Nat → List Nat → List GmlInstruction × Option PErr
  | _, [] => ([], none)
  | 0, _ :: _ => ([], some .truncated)
  | fuel + 1, b :: bs =>
    match decodeInstr (b :: bs) with
    | none => ([], some .truncated)
    | some (i, rest) =>
      let r := decodeAllF fuel rest
      (i :: r.1, r.2)

/-- Decode a full bytecode byte range (`GmlBytecode._read`). -/
def decodeAll (bs : List Nat) : List GmlInstruction × Option PErr :=
  decodeAllF bs.length bs

/-- Total instruction-word count of a decoded list (one word per instruction
plus its extra operand words). -/
def wordsOf (l : List GmlInstruction) : Nat :=
  (l.map (fun i => 1 + extraWords i.word)).sum

/-- The decoder object constructed by `GmlBytecode.__init__`: it stores the
`bytecode_version` argument and the result of `_read` on the stream. -/
structure GmlBytecode where
  bytecode_version : Nat
  instructions : List GmlInstruction
  err : Option PErr
deriving DecidableEq, Repr

/-- Translation of `GmlBytecode.__init__`: record the version, run `_read`. -/
def mkGmlBytecode (bytecode_version : Nat) (bs : List Nat) : GmlBytecode :=
  ⟨bytecode_version, (decodeAll bs).1, (decodeAll bs).2⟩

/-- Modelled from the spec: sign extension of the raw 23-bit branch offset
from bit 22 into a signed word count.  The generated code only exposes the
raw field (`branch_offset_raw`); its doc comment and §4.3 of the spec direct
the consumer (outside `src/`) to sign-extend from bit 22. -/
def signExtend23 (r : Nat) : Int :=
  if r < 4194304 then (r : Int) else (r : Int) - 8388608

/-- Decoded branch offset in word units: the raw 23-bit field of the
instruction word, sign-extended from bit 22. -/
def branchOffset (w : Nat) : Int := signExtend23 (branch_offset_raw w)

/-- Opcodes of the branch family (`b`, `bt`, `bf`, `push_env`, `pop_env` in
enum `Opcode`), for which the low 23 bits are the branch offset. -/
def isBranchOpcode (w : Nat) : Prop :=
  opcodeOf w = 182 ∨ opcodeOf w = 183 ∨ opcodeOf w = 184 ∨
  opcodeOf w = 186 ∨ opcodeOf w = 187

instance (w : Nat) : Decidable (isBranchOpcode w) := by
  unfold isBranchOpcode; infer_instance

/-- Modelled from the spec: number of extra operand words of one instruction
in the intended v15+ encoding (§4.3 extra-word table; also documented in the
`PushBody`, `PushIBody`, `CallBody`, `PopBody` and `BreakBody` doc comments,
whose operand reads are performed by the decoder outside `src/`):
`Call` and `Pop` one word; `Brk` and `Push_I` one word when `type1 = Int32`;
`Push`/`PushLoc`/`PushGlb`/`PushBltn` two words for Double/Int64, one word for
Float/Int32/Bool/Variable/String, zero for Int16; all others zero. -/
def specExtraWords (w : Nat) : Nat :=
  if opcodeOf w = 255 then (if type1Of w = 2 then 1 else 0)
  else if opcodeOf w = 217 then 1
  else if opcodeOf w = 69 then 1
  else if opcodeOf w = 132 then (if type1Of w = 2 then 1 else 0)
  else if opcodeOf w = 192 ∨ opcodeOf w = 193 ∨ opcodeOf w = 194 ∨ opcodeOf w = 195 then
    (if type1Of w = 0 ∨ type1Of w = 3 then 2
     else if type1Of w = 15 then 0
     else if type1Of w = 1 ∨ type1Of w = 2 ∨ type1Of w = 4 ∨
             type1Of w = 5 ∨ type1Of w = 6 then 1
     else 0)
  else 0

/-- One instruction of the intended (spec) v15+ encoding: the instruction
word and the list of its extra 32-bit operand words. -/
structure SpecInstr where
  word : Nat
  operands : List Nat
deriving DecidableEq, Repr

/-- The 64-bit little-endian operand of a two-word tail (low word first). -/
def SpecInstr.operand64 (i : SpecInstr) : Nat :=
  match i.operands with
  | [lo, hi] => lo + 4294967296 * hi
  | _ => 0

/-- Read `n` 32-bit LE words from the byte stream. -/
def rdWords : Nat → List Nat → Option (List Nat × List Nat)
  | 0, bs => some ([], bs)
  | n + 1, a :: b :: c :: d :: r =>
    match rdWords n r with
    | some (ws, rest) => some (le32 a b c d :: ws, rest)
    | none => none
  | _ + 1, _ => none

/-- Group a byte list into 32-bit LE words (incomplete tail discarded). -/
def bytesToWords : List Nat → List Nat
  | a :: b :: c :: d :: r => le32 a b c d :: bytesToWords r
  | _ => []

/-- Modelled from the spec: read one instruction of the intended v15+
encoding — the instruction word followed by its `specExtraWords` operand
words. -/
def specDecodeInstr : List Nat → Option (SpecInstr × List Nat)
  | a :: b :: c :: d :: r =>
    let w := le32 a b c d
    match rdWords (specExtraWords w) r with
    | some (ws, rest) => some (⟨w, ws⟩, rest)
    | none => none
  | _ => none

/-- Modelled from the spec: the instruction loop of the intended decoder,
fuel-indexed like `decodeAllF`. -/
def specDecodeAllF : Nat → List Nat → List SpecInstr × Option PErr
  | _, [] => ([], none)
  | 0, _ :: _ => ([], some .truncated)
  | fuel + 1, b :: bs =>
    match specDecodeInstr (b :: bs) with
    | none => ([], some .truncated)
    | some (i, rest) =>
      let r := specDecodeAllF fuel rest
      (i :: r.1, r.2)

/-- Modelled from the spec: decode a full byte range with the intended v15+
instruction encoding. -/
def specDecodeAll (bs : List Nat) : List SpecInstr × Option PErr :=
  specDecodeAllF bs.length bs

/-- Extra-word count of the `Push`/`PushLoc`/`PushGlb`/`PushBltn` tail as the
claim states it: Double (0) and Int64 (3) take two words, Int16 (15) takes
none, the remaining listed types (Float 1, Int32 2, Bool 4, Variable 5,
String 6) take one. -/
def pushTailWords (t : Nat) : Nat :=
  if t = 0 ∨ t = 3 then 2 else if t = 15 then 0 else 1

/-- Read one byte (`read_u1`). -/
def rdU8 : List Nat → Except PErr (Nat × List Nat)
  | b :: r => .ok (b, r)
  | [] => .error .truncated

/-- Read a 16-bit LE value (`read_u2le`). -/
def rdU16 : List Nat → Except PErr (Nat × List Nat)
  | a :: b :: r => .ok (le16 a b, r)
  | _ => .error .truncated

/-- Read a 32-bit LE value (`read_u4le`). -/
def rdU32 : List Nat → Except PErr (Nat × List Nat)
  | a :: b :: c :: d :: r => .ok (le32 a b c d, r)
  | _ => .error .truncated

/-- Read a 64-bit LE value (`read_u8le`). -/
def rdU64 : List Nat → Except PErr (Nat × List Nat)
  | a :: b :: c :: d :: e :: f :: g :: h :: r =>
    .ok (le32 a b c d + 4294967296 * le32 e f g h, r)
  | _ => .error .truncated

/-- Read exactly `n` bytes (`read_bytes(n)`); EOF error when fewer remain. -/
def rdBytesN (n : Nat) (bs : List Nat) : Except PErr (List Nat × List Nat) :=
  if n ≤ bs.length then .ok (bs.take n, bs.drop n) else .error .truncated

/-- Read `n` consecutive 32-bit LE values. -/
def rdU32s : Nat → List Nat → Except PErr (List Nat × List Nat)
  | 0, bs => .ok ([], bs)
  | n + 1, bs => do
    let (v, r) ← rdU32 bs
    let (vs, r2) ← rdU32s n r
    return (v :: vs, r2)

/-- Read `n` consecutive pairs of 32-bit LE values (two-field entries such as
`LangEntry` and `OptionConstant`). -/
def rdU32Pairs : Nat → List Nat → Except PErr (List (Nat × Nat) × List Nat)
  | 0, bs => .ok ([], bs)
  | n + 1, bs => do
    let (a, r) ← rdU32 bs
    let (b, r2) ← rdU32 r
    let (ps, r3) ← rdU32Pairs n r2
    return ((a, b) :: ps, r3)

/-- Two's-complement reinterpretation of a 32-bit value (`read_s4le`). -/
def toS32 (v : Nat) : Int :=
  if v < 2147483648 then (v : Int) else (v : Int) - 4294967296

/-- A count-prefixed list of absolute file offsets
(`GameMakerData.PointerList`). -/
structure PointerList where
  count : Nat
  offsets : List Nat
deriving DecidableEq, Repr

/-- Translation of `PointerList._read`: a u32 count then that many u32
offsets. -/
def parsePointerList (bs : List Nat) : Except PErr (PointerList × List Nat) := do
  let (count, r) ← rdU32 bs
  let (offsets, r2) ← rdU32s count r
  return (⟨count, offsets⟩, r2)

/-- Fields of `GameMakerData.Gen8Body`. -/
structure Gen8Body where
  is_debug_disabled : Nat
  bytecode_version : Nat
  padding : Nat
  filename : Nat
  config : Nat
  last_obj : Nat
  last_tile : Nat
  game_id : Nat
  guid : List Nat
  name : Nat
  ide_version_major : Nat
  ide_version_minor : Nat
  ide_version_release : Nat
  ide_version_build : Nat
  default_window_width : Nat
  default_window_height : Nat
  info_flags : Nat
  license_crc32 : Nat
  license_md5 : List Nat
  timestamp : Nat
  display_name : Nat
  active_targets : Nat
  function_classifications : Nat
  steam_app_id : Int
  debugger_port : Option Nat
  room_count : Nat
  room_order : List Nat
  gms2_extra : Option (List Nat)
deriving DecidableEq, Repr

/-- Translation of `Gen8Body._read`: the flat GEN8 layout, with
`debugger_port` present only when `bytecode_version >= 14` and `gms2_extra`
(the remainder of the body) only when `ide_version_major >= 2`. -/
def parseGen8 (bs : List Nat) : Except PErr Gen8Body := do
  let (is_debug_disabled, r) ← rdU8 bs
  let (bytecode_version, r) ← rdU8 r
  let (padding, r) ← rdU16 r
  let (filename, r) ← rdU32 r
  let (config, r) ← rdU32 r
  let (last_obj, r) ← rdU32 r
  let (last_tile, r) ← rdU32 r
  let (game_id, r) ← rdU32 r
  let (guid, r) ← rdBytesN 16 r
  let (name, r) ← rdU32 r
  let (ide_version_major, r) ← rdU32 r
  let (ide_version_minor, r) ← rdU32 r
  let (ide_version_release, r) ← rdU32 r
  let (ide_version_build, r) ← rdU32 r
  let (default_window_width, r) ← rdU32 r
  let (default_window_height, r) ← rdU32 r
  let (info_flags, r) ← rdU32 r
  let (license_crc32, r) ← rdU32 r
  let (license_md5, r) ← rdBytesN 16 r
  let (timestamp, r) ← rdU64 r
  let (display_name, r) ← rdU32 r
  let (active_targets, r) ← rdU64 r
  let (function_classifications, r) ← rdU64 r
  let (steam_raw, r) ← rdU32 r
  let (debugger_port, r) ←
    if bytecode_version ≥ 14 then do
      let (p, r2) ← rdU32 r
      pure (some p, r2)
    else pure ((none : Option Nat), r)
  let (room_count, r) ← rdU32 r
  let (room_order, r) ← rdU32s room_count r
  let gms2_extra := if ide_version_major ≥ 2 then some r else none
  return ⟨is_debug_disabled, bytecode_version, padding, filename, config, last_obj,
    last_tile, game_id, guid, name, ide_version_major, ide_version_minor,
    ide_version_release, ide_version_build, default_window_width,
    default_window_height, info_flags, license_crc32, license_md5, timestamp,
    display_name, active_targets, function_classifications, toS32 steam_raw,
    debugger_port, room_count, room_order, gms2_extra⟩

/-- Fields of `GameMakerData.LangBody`. -/
structure LangBody where
  entry_count : Nat
  actual_count : Nat
  entries : List (Nat × Nat)
deriving DecidableEq, Repr

/-- Translation of `LangBody._read`. -/
def parseLang (bs : List Nat) : Except PErr LangBody := do
  let (entry_count, r) ← rdU32 bs
  let (actual_count, r2) ← rdU32 r
  let (entries, _) ← rdU32Pairs actual_count r2
  return ⟨entry_count, actual_count, entries⟩

/-- Fields of `GameMakerData.OptnBody`. -/
structure OptnBody where
  flags : Nat
  reserved : List Nat
  constant_count : Nat
  constants : List (Nat × Nat)
deriving DecidableEq, Repr

/-- Translation of `OptnBody._read`: flags, 56 reserved bytes, then the
count-prefixed constant list. -/
def parseOptn (bs : List Nat) : Except PErr OptnBody := do
  let (flags, r) ← rdU32 bs
  let (reserved, r2) ← rdBytesN 56 r
  let (constant_count, r3) ← rdU32 r2
  let (constants, _) ← rdU32Pairs constant_count r3
  return ⟨flags, reserved, constant_count, constants⟩

/-- Fields of `GameMakerData.GlobBody`. -/
structure GlobBody where
  count : Nat
  script_ids : List Nat
deriving DecidableEq, Repr

/-- Translation of `GlobBody._read`. -/
def parseGlob (bs : List Nat) : Except PErr GlobBody := do
  let (count, r) ← rdU32 bs
  let (script_ids, _) ← rdU32s count r
  return ⟨count, script_ids⟩

/-- Fields of `GameMakerData.SeqnBody`: the version word that precedes the
pointer list (unique to SEQN), then the list itself. -/
structure SeqnBody where
  version : Nat
  sequences : PointerList
deriving DecidableEq, Repr

/-- Translation of `SeqnBody._read`. -/
def parseSeqn (bs : List Nat) : Except PErr SeqnBody := do
  let (version, r) ← rdU32 bs
  let (sequences, _) ← parsePointerList r
  return ⟨version, sequences⟩

/-- Chunk body after dispatch on the tag (`Chunk._read`): one constructor per
recognised tag, mirroring the generated body classes; pointer-list-only
bodies carry the parsed `PointerList`, `FUNC`/`VARI` keep their raw bytes
(`read_bytes_full`), unknown tags keep the raw body. -/
inductive ChunkBody where
  | audo (entries : PointerList)
  | bgnd (backgrounds : PointerList)
  | code (entries : PointerList)
  | font (fonts : PointerList)
  | func (data : List Nat)
  | gen8 (g : Gen8Body)
  | glob (g : GlobBody)
  | lang (l : LangBody)
  | objt (objects : PointerList)
  | optn (o : OptnBody)
  | room (rooms : PointerList)
  | scpt (scripts : PointerList)
  | seqn (s : SeqnBody)
  | shdr (shaders : PointerList)
  | sond (sounds : PointerList)
  | sprt (sprites : PointerList)
  | strg (strings : PointerList)
  | tpag (items : PointerList)
  | txtr (textures : PointerList)
  | vari (data : List Nat)
  | raw (data : List Nat)
deriving DecidableEq, Repr

/-- Parse a pointer-list-only chunk body, keeping just the list. -/
def parsePLBody (mk : PointerList → ChunkBody) (raw : List Nat) :
    Except PErr ChunkBody := do
  let (pl, _) ← parsePointerList raw
  return mk pl

/-- Dispatch of `Chunk._read` on the four tag bytes, each sub-parser running
on the captured `size`-byte body sub-stream. -/
def parseBody (tag raw : List Nat) : Except PErr ChunkBody :=
  if tag = [65, 85, 68, 79] then parsePLBody .audo raw          -- AUDO
  else if tag = [66, 71, 78, 68] then parsePLBody .bgnd raw     -- BGND
  else if tag = [67, 79, 68, 69] then parsePLBody .code raw     -- CODE
  else if tag = [70, 79, 78, 84] then parsePLBody .font raw     -- FONT
  else if tag = [70, 85, 78, 67] then .ok (.func raw)           -- FUNC
  else if tag = [71, 69, 78, 56] then (parseGen8 raw).map .gen8 -- GEN8
  else if tag = [71, 76, 79, 66] then (parseGlob raw).map .glob -- GLOB
  else if tag = [76, 65, 78, 71] then (parseLang raw).map .lang -- LANG
  else if tag = [79, 66, 74, 84] then parsePLBody .objt raw     -- OBJT
  else if tag = [79, 80, 84, 78] then (parseOptn raw).map .optn -- OPTN
  else if tag = [82, 79, 79, 77] then parsePLBody .room raw     -- ROOM
  else if tag = [83, 67, 80, 84] then parsePLBody .scpt raw     -- SCPT
  else if tag = [83, 69, 81, 78] then (parseSeqn raw).map .seqn -- SEQN
  else if tag = [83, 72, 68, 82] then parsePLBody .shdr raw     -- SHDR
  else if tag = [83, 79, 78, 68] then parsePLBody .sond raw     -- SOND
  else if tag = [83, 80, 82, 84] then parsePLBody .sprt raw     -- SPRT
  else if tag = [83, 84, 82, 71] then parsePLBody .strg raw     -- STRG
  else if tag = [84, 80, 65, 71] then parsePLBody .tpag raw     -- TPAG
  else if tag = [84, 88, 84, 82] then parsePLBody .txtr raw     -- TXTR
  else if tag = [86, 65, 82, 73] then .ok (.vari raw)           -- VARI
  else .ok (.raw raw)

/-- One parsed chunk: tag bytes, declared body size, parsed body. -/
structure Chunk where
  tag : List Nat
  size : Nat
  body : ChunkBody
deriving DecidableEq, Repr

/-- Translation of `Chunk._read`: four ASCII tag bytes (non-ASCII fails), a
u32 LE size, capture of exactly `size` body bytes into a sub-stream, body
dispatch, and continuation at `body_start + size` in the outer stream. -/
def parseChunk (bs : List Nat) : Except PErr (Chunk × List Nat) :=
  match bs with
  | t0 :: t1 :: t2 :: t3 :: s0 :: s1 :: s2 :: s3 :: rest =>
    if t0 < 128 ∧ t1 < 128 ∧ t2 < 128 ∧ t3 < 128 then
      if le32 s0 s1 s2 s3 ≤ rest.length then
        match parseBody [t0, t1, t2, t3] (rest.take (le32 s0 s1 s2 s3)) with
        | .ok body => .ok (⟨[t0, t1, t2, t3], le32 s0 s1 s2 s3, body⟩,
            rest.drop (le32 s0 s1 s2 s3))
        | .error e => .error e
      else .error .truncated
    else .error .badMagic
  | _ => .error .truncated

/-- Fuel-indexed chunk loop of `GameMakerData._read`
(`while not eof: append one chunk`).  `parseChunks` supplies fuel that can
never run out because every chunk consumes at least 8 bytes. -/
def parseChunksF : Nat → List Nat → Except PErr (List Chunk)
  | _, [] => .ok []
  | 0, _ :: _ => .error .truncated
  | fuel + 1, b :: bs =>
    match parseChunk (b :: bs) with
    | .error e => .error e
    | .ok (c, rest) =>
      match parseChunksF fuel rest with
      | .error e => .error e
      | .ok cs => .ok (c :: cs)

/-- Chunk loop on a byte stream. -/
def parseChunks (bs : List Nat) : Except PErr (List Chunk) :=
  parseChunksF bs.length bs

/-- A parsed container: declared size and the chunk sequence. -/
structure Container where
  size : Nat
  chunks : List Chunk
deriving DecidableEq, Repr

/-- Translation of `GameMakerData._read`: validate the `FORM` magic, read the
declared size, then run the chunk loop until end of stream. -/
def parseGameMakerData (bs : List Nat) : Except PErr Container :=
  match bs with
  | m0 :: m1 :: m2 :: m3 :: rest =>
    if [m0, m1, m2, m3] = [70, 79, 82, 77] then
      match rest with
      | s0 :: s1 :: s2 :: s3 :: rest2 =>
        (parseChunks rest2).map (fun cs => ⟨le32 s0 s1 s2 s3, cs⟩)
      | _ => .error .truncated
    else .error .badMagic
  | _ => .error .truncated

/-- Byte at an index, zero off the end. -/
def byteAt (bs : List Nat) (i : Nat) : Nat := bs.getD i 0

/-- Modelled from the spec: a scan candidate at offset `i` — the four bytes
`FORM` are present there and the following u32 LE size field satisfies
`size + 8 <= buffer_len` (the class doc of `GameMakerData` describes this
scan; the code performing it lives outside `src/`). -/
def formCand (bs : List Nat) (i : Nat) : Bool :=
  decide (i + 8 ≤ bs.length) &&
  (byteAt bs i == 70) && (byteAt bs (i + 1) == 79) &&
  (byteAt bs (i + 2) == 82) && (byteAt bs (i + 3) == 77) &&
  decide (le32 (byteAt bs (i + 4)) (byteAt bs (i + 5)) (byteAt bs (i + 6))
      (byteAt bs (i + 7)) + 8 ≤ bs.length)

/-- Scan positions `i, i+1, …` (fuel-bounded) for the first candidate. -/
def findFormAux (bs : List Nat) : Nat → Nat → Option Nat
  | 0, _ => none
  | fuel + 1, i => if formCand bs i then some i else findFormAux bs fuel (i + 1)

/-- Modelled from the spec: offset of the first `FORM` magic whose declared
size fits the buffer, if any. -/
def findForm (bs : List Nat) : Option Nat := findFormAux bs bs.length 0

/-- Modelled from the spec: the `parse_container` entry point — scan for the
first fitting `FORM` magic, treat the preceding bytes as a PE envelope, parse
from the magic, and expose the base offset alongside the container. -/
def parse_container (bs : List Nat) : Except PErr (Nat × Container) :=
  match findForm bs with
  | some i => (parseGameMakerData (bs.drop i)).map (fun c => (i, c))
  | none => .error .badMagic

/-- Modelled from the spec: exact rational value of a finite IEEE 754
binary64 bit pattern (sign bit 63, biased exponent bits 62–52, fraction
bits 51–0; subnormals at biased exponent 0). -/
def f64ValOfBits (bits : Nat) : ℚ :=
  let s : ℚ := if bits / 9223372036854775808 % 2 = 1 then -1 else 1
  let e := bits / 4503599627370496 % 2048
  let m := bits % 4503599627370496
  if e = 0 then s * m / 2 ^ 1074
  else s * (4503599627370496 + m) * 2 ^ e / 2 ^ 1075


/-- Continuation byte test of the strict UTF-8 decoder: `0x80 ≤ c ≤ 0xBF`. -/
def utf8Cont (c : Nat) : Bool := 128 ≤ c && c ≤ 191

/-- Strict UTF-8 validity of a byte sequence, as enforced by the `decode`
call in `GmString._read` (CPython's strict decoder: no overlong forms, no
surrogates, nothing above U+10FFFF). -/
def utf8Valid : List Nat → Bool
  | [] => true
  | b :: rest =>
    if b < 128 then utf8Valid rest
    else if 194 ≤ b && b ≤ 223 then
      match rest with
      | c1 :: r => utf8Cont c1 && utf8Valid r
      | [] => false
    else if b = 224 then
      match rest with
      | c1 :: c2 :: r => (160 ≤ c1 && c1 ≤ 191) && utf8Cont c2 && utf8Valid r
      | _ => false
    else if (225 ≤ b && b ≤ 236) || b = 238 || b = 239 then
      match rest with
      | c1 :: c2 :: r => utf8Cont c1 && utf8Cont c2 && utf8Valid r
      | _ => false
    else if b = 237 then
      match rest with
      | c1 :: c2 :: r => (128 ≤ c1 && c1 ≤ 159) && utf8Cont c2 && utf8Valid r
      | _ => false
    else if b = 240 then
      match rest with
      | c1 :: c2 :: c3 :: r =>
        (144 ≤ c1 && c1 ≤ 191) && utf8Cont c2 && utf8Cont c3 && utf8Valid r
      | _ => false
    else if 241 ≤ b && b ≤ 243 then
      match rest with
      | c1 :: c2 :: c3 :: r =>
        utf8Cont c1 && utf8Cont c2 && utf8Cont c3 && utf8Valid r
      | _ => false
    else if b = 244 then
      match rest with
      | c1 :: c2 :: c3 :: r =>
        (128 ≤ c1 && c1 ≤ 143) && utf8Cont c2 && utf8Cont c3 && utf8Valid r
      | _ => false
    else false

/-- A parsed GameMaker string: the length prefix and the character bytes. -/
structure GmString where
  length : Nat
  value : List Nat
deriving DecidableEq, Repr

/-- Translation of `GmString._read`: u32 LE length, `length` character bytes
decoded as strict UTF-8, then a mandatory `0x00` terminator byte
(`ValidationNotEqualError` there is the malformed-string failure). -/
def parseGmString (bs : List Nat) : Except PErr GmString :=
  match bs with
  | a :: b :: c :: d :: r =>
    let len := le32 a b c d
    if len ≤ r.length then
      let chars := r.take len
      if utf8Valid chars then
        match r.drop len with
        | t :: _ => if t = 0 then .ok ⟨len, chars⟩ else .error .malformedString
        | [] => .error .truncated
      else .error .badUtf8
    else .error .truncated
  | _ => .error .truncated

/-- Length prefix a `GmString` parse would read at the start of `bs`. -/
def gmLen (bs : List Nat) : Nat :=
  le32 (byteAt bs 0) (byteAt bs 1) (byteAt bs 2) (byteAt bs 3)

/-- Character bytes a `GmString` parse would read at the start of `bs`. -/
def gmChars (bs : List Nat) : List Nat := (bs.drop 4).take (gmLen bs)

/-- The byte following the character bytes (the terminator position). -/
def gmTerm (bs : List Nat) : Option Nat := (bs.drop (4 + gmLen bs)).head?

/-- Well-formedness of a `GmString` at the start of `bs`: the length prefix,
all `gmLen bs` character bytes and the terminator are present, the character
bytes are valid strict UTF-8, and the terminator byte is `0x00`. -/
def gmWf (bs : List Nat) : Prop :=
  4 ≤ bs.length ∧ 4 + gmLen bs + 1 ≤ bs.length ∧
  utf8Valid (gmChars bs) = true ∧ gmTerm bs = some 0

instance (bs : List Nat) : Decidable (gmWf bs) := by
  unfold gmWf; infer_instance

/-- Fields of `GameMakerData.CodeEntryV14` (12-byte header). -/
structure CodeEntryV14 where
  name : Nat
  length : Nat
deriving DecidableEq, Repr

/-- Translation of `CodeEntryV14._read`. -/
def parseCodeEntryV14 (bs : List Nat) : Except PErr (CodeEntryV14 × List Nat) := do
  let (name, r) ← rdU32 bs
  let (length, r2) ← rdU32 r
  return (⟨name, length⟩, r2)

/-- Fields of `GameMakerData.CodeEntryV15` (24-byte header). -/
structure CodeEntryV15 where
  name : Nat
  blob_length : Nat
  locals_count : Nat
  args_count : Nat
  bc_rel_addr : Int
  offset_in_blob : Nat
deriving DecidableEq, Repr

/-- Translation of `CodeEntryV15._read`. -/
def parseCodeEntryV15 (bs : List Nat) : Except PErr (CodeEntryV15 × List Nat) := do
  let (name, r) ← rdU32 bs
  let (blob_length, r2) ← rdU32 r
  let (locals_count, r3) ← rdU16 r2
  let (args_count, r4) ← rdU16 r3
  let (bc_raw, r5) ← rdU32 r4
  let (offset_in_blob, r6) ← rdU32 r5
  return (⟨name, blob_length, locals_count, args_count, toS32 bc_raw, offset_in_blob⟩, r6)

/-- Modelled from the spec: per-entry bytecode lengths of a shared blob from
its ascending `offset_in_blob` values — each entry's length is the gap to the
next offset, the last entry extends to `blob_length` (steps 3–4 of the CODE
post-processing described in the `CodeBody` doc and §4.2 of the spec; the
code performing it lives outside `src/`). -/
def gapLengths (blobLen : Nat) : List Nat → List Nat
  | [] => []
  | [o] => [blobLen - o]
  | o₁ :: o₂ :: rest => (o₂ - o₁) :: gapLengths blobLen (o₂ :: rest)

/-- Modelled from the spec: lengths of the entries of one shared-blob group —
sort the group's `offset_in_blob` values ascending (step 2) and take the gaps
(steps 3–4). -/
def computeGroupLengths (blobLen : Nat) (g : List CodeEntryV15) : List Nat :=
  gapLengths blobLen ((g.map (·.offset_in_blob)).insertionSort (· ≤ ·))

/-- A random-access cursor over the file buffer (§4.1 ByteCursor). -/
structure ByteCursor where
  data : List Nat
  pos : Nat
deriving DecidableEq, Repr

/-- Modelled from the spec: resolution of one pointer-list entry — an offset
of 0 (where 0 is not specified to mean absent) or beyond the buffer fails
with `InvalidPointer`; otherwise the cursor position is saved, the cursor
seeks to the absolute offset, the typed entry is parsed there, and the
position is restored regardless of success or failure (§4.2 pointer-list
discipline together with §4.1 `with_saved_position`). -/
def resolveEntry {E : Type} (cur : ByteCursor) (off : Nat)
    (parse : ByteCursor → Except PErr (E × ByteCursor)) :
    Except PErr E × ByteCursor :=
  if off = 0 ∨ cur.data.length < off then (.error .invalidPointer, cur)
  else
    match parse { cur with pos := off } with
    | .ok (e, _) => (.ok e, cur)
    | .error err => (.error err, cur)

/-- Modelled from the spec: resolution of every entry of a pointer list. -/
def resolveList {E : Type} (cur : ByteCursor) (pl : PointerList)
    (parse : ByteCursor → Except PErr (E × ByteCursor)) : List (Except PErr E) :=
  pl.offsets.map (fun off => (resolveEntry cur off parse).1)

theorem parseChunk_ok {bs : List Nat} {c : Chunk} {rest : List Nat}
    (h : parseChunk bs = .ok (c, rest)) :
    rest = bs.drop (8 + c.size) ∧ 8 + c.size ≤ bs.length := by
  unfold parseChunk at h
  split at h
  case h_2 => exact Except.noConfusion h
  case h_1 t0 t1 t2 t3 s0 s1 s2 s3 rest0 =>
    split at h
    case isFalse => exact Except.noConfusion h
    case isTrue hascii =>
      split at h
      case isFalse => exact Except.noConfusion h
      case isTrue hsz =>
        split at h
        case h_2 => exact Except.noConfusion h
        case h_1 body hbody =>
          injection h with h2
          injection h2 with hc hr
          subst hc
          subst hr
          refine ⟨?_, by simp; omega⟩
          rw [← List.drop_drop]
          rfl

/-- C9: parsing one chunk advances the outer stream to exactly
`body_start + size` — the continuation returned by `parseChunk` is the input
with the 8 header bytes and the `size` body bytes removed, whatever the tag
and however much of the body sub-stream the dispatched sub-parser consumed. -/
theorem chunk_cursor_advance (bs : List Nat) (c : Chunk) (rest : List Nat)
    (h : parseChunk bs = .ok (c, rest)) :
    rest = bs.drop (8 + c.size) ∧ 8 + c.size ≤ bs.length := parseChunk_ok h

/-- Witness for C9: a `STRG` chunk of declared size 12 whose pointer list
occupies only 8 body bytes; the outer stream still continues at
`8 + 12` bytes past the chunk start. -/
theorem chunk_cursor_advance_witness :
    ([7, 7] : List Nat) =
      ([83, 84, 82, 71, 12, 0, 0, 0, 1, 0, 0, 0, 52, 0, 0, 0, 9, 9, 9, 9, 7, 7] :
        List Nat).drop (8 + 12) ∧
    8 + 12 ≤
      ([83, 84, 82, 71, 12, 0, 0, 0, 1, 0, 0, 0, 52, 0, 0, 0, 9, 9, 9, 9, 7, 7] :
        List Nat).length :=
  chunk_cursor_advance
    [83, 84, 82, 71, 12, 0, 0, 0, 1, 0, 0, 0, 52, 0, 0, 0, 9, 9, 9, 9, 7, 7]
    ⟨[83, 84, 82, 71], 12, .strg ⟨1, [52]⟩⟩ [7, 7] (by decide)

/-- C10: the decoded instruction sequence (and the error outcome) of
`GmlBytecode` is the same for every `bytecode_version` argument — `__init__`
stores the version but `_read` never consults it. -/
theorem decode_version_independent (bs : List Nat) (v₁ v₂ : Nat) :
    (mkGmlBytecode v₁ bs).instructions = (mkGmlBytecode v₂ bs).instructions ∧
    (mkGmlBytecode v₁ bs).err = (mkGmlBytecode v₂ bs).err := ⟨rfl, rfl⟩

/-- C7: for branch-family instruction words the decoded branch offset is the
low 23 bits sign-extended from bit 22: the raw patterns `0x7FFFFF`,
`0x400000` and `0x3FFFFF` decode to `-1`, `-(2^22)` and `2^22 - 1` word
counts respectively. -/
theorem branch_sign_extension :
    (∀ w : Nat, isBranchOpcode w → branch_offset_raw w = 0x7FFFFF →
      branchOffset w = -1) ∧
    (∀ w : Nat, isBranchOpcode w → branch_offset_raw w = 0x400000 →
      branchOffset w = -(2 ^ 22)) ∧
    (∀ w : Nat, isBranchOpcode w → branch_offset_raw w = 0x3FFFFF →
      branchOffset w = 2 ^ 22 - 1) := by
  refine ⟨?_, ?_, ?_⟩ <;> intro w _ hr <;>
    simp only [branchOffset, hr, signExtend23] <;> decide

/-- Witness for C7 at the words `0xB67FFFFF` (`b`), `0xB7400000` (`bt`) and
`0xB83FFFFF` (`bf`). -/
theorem branch_sign_extension_witness :
    branchOffset 0xB67FFFFF = -1 ∧ branchOffset 0xB7400000 = -(2 ^ 22) ∧
    branchOffset 0xB83FFFFF = 2 ^ 22 - 1 :=
  ⟨branch_sign_extension.1 0xB67FFFFF (by decide) (by decide),
   branch_sign_extension.2.1 0xB7400000 (by decide) (by decide),
   branch_sign_extension.2.2 0xB83FFFFF (by decide) (by decide)⟩

/-- C5: resolving a pointer-list entry leaves the cursor exactly as saved
(regardless of the parse outcome), fails with `InvalidPointer` when the
offset is 0 or beyond the buffer, and otherwise is the result of parsing
the typed entry at the absolute offset. -/
theorem pointer_entry_resolution {E : Type} (cur : ByteCursor) (off : Nat)
    (parse : ByteCursor → Except PErr (E × ByteCursor)) :
    (resolveEntry cur off parse).2 = cur ∧
    (off = 0 ∨ cur.data.length < off →
      (resolveEntry cur off parse).1 = .error .invalidPointer) ∧
    (¬(off = 0 ∨ cur.data.length < off) →
      (resolveEntry cur off parse).1 = (parse { cur with pos := off }).map Prod.fst) := by
  unfold resolveEntry
  by_cases h : off = 0 ∨ cur.data.length < off
  · simp [h]
  · cases hp : parse { cur with pos := off } with
    | ok v => cases v with | mk e cur2 => simp [h, hp, Except.map]
    | error err => simp [h, hp, Except.map]

/-- Witness for C5 at offset 0 over a 3-byte buffer: `InvalidPointer`, cursor
unchanged. -/
theorem pointer_entry_resolution_witness :
    (resolveEntry (E := Nat) ⟨[1, 2, 3], 0⟩ 0 (fun c => .ok (7, c))).1 =
      .error .invalidPointer ∧
    (resolveEntry (E := Nat) ⟨[1, 2, 3], 0⟩ 0 (fun c => .ok (7, c))).2 = ⟨[1, 2, 3], 0⟩ :=
  ⟨(pointer_entry_resolution ⟨[1, 2, 3], 0⟩ 0 (fun c => .ok (7, c))).2.1 (Or.inl rfl),
   (pointer_entry_resolution ⟨[1, 2, 3], 0⟩ 0 (fun c => .ok (7, c))).1⟩

/-- Counterexample for C4: a 16-byte buffer whose declared size is 0 (so the
declared boundary lies at byte 8) still has its trailing 8 bytes parsed as a
chunk — the loop of `GameMakerData._read` runs until end of file and never
consults `form_start + 8 + declared_size`, contradicting the claim that
bytes past the declared boundary are not parsed as chunks. -/
theorem chunk_loop_boundary_cex :
    parseGameMakerData [70, 79, 82, 77, 0, 0, 0, 0, 65, 66, 67, 68, 0, 0, 0, 0] =
      .ok ⟨0, [⟨[65, 66, 67, 68], 0, .raw []⟩]⟩ ∧
    8 + (0 : Nat) <
      ([70, 79, 82, 77, 0, 0, 0, 0, 65, 66, 67, 68, 0, 0, 0, 0] : List Nat).length := by
  decide

theorem parseChunksF_sum :
    ∀ (fuel : Nat) (bs : List Nat) (l : List Chunk), bs.length ≤ fuel →
      parseChunksF fuel bs = .ok l →
      (l.map (fun ch => 8 + ch.size)).sum = bs.length := by
  intro fuel
  induction fuel with
  | zero =>
    intro bs l hlen h
    have hbs : bs = [] := List.eq_nil_of_length_eq_zero (Nat.le_zero.mp hlen)
    subst hbs
    simp only [parseChunksF] at h
    injection h with h2
    subst h2
    simp
  | succ fuel ih =>
    intro bs l hlen h
    cases bs with
    | nil =>
      simp only [parseChunksF] at h
      injection h with h2
      subst h2
      simp
    | cons b bs' =>
      simp only [parseChunksF] at h
      split at h
      case h_1 => exact Except.noConfusion h
      case h_2 c rest hc =>
        split at h
        case h_1 => exact Except.noConfusion h
        case h_2 cs hcs =>
          injection h with h2
          subst h2
          obtain ⟨hrest, hle⟩ := parseChunk_ok hc
          have hrl : rest.length = (b :: bs').length - (8 + c.size) := by
            rw [hrest, List.length_drop]
          have hfuel : rest.length ≤ fuel := by
            simp only [List.length_cons] at hle hrl hlen ⊢
            omega
          have hsum := ih rest cs hfuel hcs
          simp only [List.map_cons, List.sum_cons, hsum, hrl]
          simp only [List.length_cons] at hle ⊢
          omega

/-- C4 (amended): the chunk loop reads chunks until end of file, not until
the declared boundary — when container parsing succeeds, the parsed chunks
tile the whole remainder of the buffer after the 8-byte FORM header exactly,
whatever `declared_size` says. -/
theorem chunk_loop_reads_to_eof (bs : List Nat) (c : Container)
    (h : parseGameMakerData bs = .ok c) :
    8 + (c.chunks.map (fun ch => 8 + ch.size)).sum = bs.length := by
  unfold parseGameMakerData at h
  split at h
  case h_2 => exact Except.noConfusion h
  case h_1 m0 m1 m2 m3 rest =>
    split at h
    case isFalse => exact Except.noConfusion h
    case isTrue hm =>
      split at h
      case h_2 => exact Except.noConfusion h
      case h_1 s0 s1 s2 s3 rest2 =>
        cases hcs : parseChunks rest2 with
        | error e => rw [hcs] at h; exact Except.noConfusion h
        | ok l =>
          rw [hcs] at h
          injection h with h2
          subst h2
          have := parseChunksF_sum rest2.length rest2 l le_rfl hcs
          simp only [List.length_cons]
          omega

/-- Witness for C4 (amended) at the counterexample buffer: one chunk of size
0 after the header, `8 + (8 + 0) = 16`. -/
theorem chunk_loop_reads_to_eof_witness :
    8 + (([⟨[65, 66, 67, 68], 0, .raw []⟩] : List Chunk).map (fun ch => 8 + ch.size)).sum =
      ([70, 79, 82, 77, 0, 0, 0, 0, 65, 66, 67, 68, 0, 0, 0, 0] : List Nat).length :=
  chunk_loop_reads_to_eof [70, 79, 82, 77, 0, 0, 0, 0, 65, 66, 67, 68, 0, 0, 0, 0]
    ⟨0, [⟨[65, 66, 67, 68], 0, .raw []⟩]⟩ (by decide)

theorem decodeInstr_frame {bs : List Nat} {i : GmlInstruction} {rest : List Nat}
    (h : decodeInstr bs = some (i, rest)) :
    ∃ pre, bs = pre ++ rest ∧ pre.length = 4 * (1 + extraWords i.word) ∧
      ∀ t, decodeInstr (pre ++ t) = some (i, t) := by
  rcases bs with _ | ⟨a, _ | ⟨b, _ | ⟨c, _ | ⟨d, r⟩⟩⟩⟩ <;>
    try exact Option.noConfusion h
  by_cases hz : extraWords (le32 a b c d) = 0
  · simp only [decodeInstr, hz, if_true] at h
    injection h with h2
    injection h2 with hi hr
    subst hr
    subst hi
    refine ⟨[a, b, c, d], rfl, by simp [hz], ?_⟩
    intro t
    simp [decodeInstr, hz]
  · simp only [decodeInstr, hz, if_false] at h
    split at h
    next e1 e2 e3 e4 r2 =>
      injection h with h2
      injection h2 with hi hr
      subst hr
      subst hi
      have hone : extraWords (le32 a b c d) = 1 := by
        have := extraWords_le_one (le32 a b c d)
        omega
      refine ⟨[a, b, c, d, e1, e2, e3, e4], rfl, by simp [hone], ?_⟩
      intro t
      simp [decodeInstr, hz]
    next => exact Option.noConfusion h

theorem decodeInstr_shrink {bs : List Nat} {i : GmlInstruction} {rest : List Nat}
    (h : decodeInstr bs = some (i, rest)) : rest.length < bs.length := by
  obtain ⟨pre, hbs, hlen, -⟩ := decodeInstr_frame h
  subst hbs
  simp only [List.length_append]
  omega

theorem decodeAllF_fuel :
    ∀ (f₁ f₂ : Nat) (bs : List Nat), bs.length ≤ f₁ → bs.length ≤ f₂ →
      decodeAllF f₁ bs = decodeAllF f₂ bs := by
  intro f₁
  induction f₁ with
  | zero =>
    intro f₂ bs h₁ h₂
    have hbs : bs = [] := List.eq_nil_of_length_eq_zero (Nat.le_zero.mp h₁)
    subst hbs
    cases f₂ <;> rfl
  | succ f₁ ih =>
    intro f₂ bs h₁ h₂
    cases bs with
    | nil => cases f₂ <;> rfl
    | cons b bs' =>
      cases f₂ with
      | zero => simp at h₂
      | succ f₂' =>
        simp only [decodeAllF]
        cases hdi : decodeInstr (b :: bs') with
        | none => rfl
        | some pr =>
          cases pr with
          | mk i rest =>
            dsimp only
            have hlt := decodeInstr_shrink hdi
            simp only [List.length_cons] at h₁ h₂ hlt
            rw [ih f₂' rest (by omega) (by omega)]

theorem decodeAllF_exhaust :
    ∀ (fuel : Nat) (bs : List Nat), bs.length ≤ fuel →
      ((decodeAllF fuel bs).2 = none ↔ 4 * wordsOf (decodeAllF fuel bs).1 = bs.length) := by
  intro fuel
  induction fuel with
  | zero =>
    intro bs h
    have hbs : bs = [] := List.eq_nil_of_length_eq_zero (Nat.le_zero.mp h)
    subst hbs
    simp [decodeAllF, wordsOf]
  | succ fuel ih =>
    intro bs h
    cases bs with
    | nil => simp [decodeAllF, wordsOf]
    | cons b bs' =>
      simp only [decodeAllF]
      cases hdi : decodeInstr (b :: bs') with
      | none =>
        dsimp only
        constructor
        · intro hcon; exact Option.noConfusion hcon
        · intro hcon
          simp only [wordsOf, List.map_nil, List.sum_nil, List.length_cons] at hcon
          omega
      | some pr =>
        cases pr with
        | mk i rest =>
          dsimp only
          obtain ⟨pre, hbs, hlen, -⟩ := decodeInstr_frame hdi
          have hlt := decodeInstr_shrink hdi
          simp only [List.length_cons] at h hlt
          have hih := ih rest (by omega)
          rw [hih]
          have hblen : (b :: bs').length = pre.length + rest.length := by
            rw [hbs, List.length_append]
          simp only [List.length_cons] at hblen
          simp only [wordsOf, List.map_cons, List.sum_cons, List.length_cons]
          constructor <;> intro hw <;> omega

theorem decodeAll_cons_of_frame {pre : List Nat} {i : GmlInstruction} (t : List Nat)
    (hpre : pre.length = 4 * (1 + extraWords i.word))
    (hframe : ∀ u, decodeInstr (pre ++ u) = some (i, u)) :
    decodeAll (pre ++ t) = (i :: (decodeAll t).1, (decodeAll t).2) := by
  rcases pre with _ | ⟨p0, pre'⟩
  · simp at hpre
  · simp only [List.cons_append] at hframe ⊢
    show decodeAllF (p0 :: (pre' ++ t)).length (p0 :: (pre' ++ t)) = _
    rw [List.length_cons]
    simp only [decodeAllF]
    rw [hframe t]
    dsimp only
    have hfl : t.length ≤ (pre' ++ t).length := by
      simp only [List.length_append]
      omega
    rw [decodeAllF_fuel (pre' ++ t).length t.length t hfl le_rfl]
    rfl

theorem decodeAllF_prior :
    ∀ (fuel : Nat) (bs : List Nat), bs.length ≤ fuel →
      (decodeAllF fuel bs).2.isSome = true →
      decodeAll (bs.take (4 * wordsOf (decodeAllF fuel bs).1)) =
        ((decodeAllF fuel bs).1, none) := by
  intro fuel
  induction fuel with
  | zero =>
    intro bs h hs
    have hbs : bs = [] := List.eq_nil_of_length_eq_zero (Nat.le_zero.mp h)
    subst hbs
    simp [decodeAllF] at hs
  | succ fuel ih =>
    intro bs h hs
    cases bs with
    | nil => simp [decodeAllF] at hs
    | cons b bs' =>
      simp only [decodeAllF] at hs ⊢
      cases hdi : decodeInstr (b :: bs') with
      | none =>
        dsimp only
        simp [wordsOf, decodeAll, decodeAllF]
      | some pr =>
        cases pr with
        | mk i rest =>
          rw [hdi] at hs
          dsimp only at hs ⊢
          obtain ⟨pre, hbs, hlen, hframe⟩ := decodeInstr_frame hdi
          have hlt := decodeInstr_shrink hdi
          simp only [List.length_cons] at h hlt
          have hIH := ih rest (by omega) hs
          have hword : 4 * wordsOf (i :: (decodeAllF fuel rest).1) =
              pre.length + 4 * wordsOf (decodeAllF fuel rest).1 := by
            simp only [wordsOf, List.map_cons, List.sum_cons]
            omega
          rw [hword, hbs, List.take_append,
            decodeAll_cons_of_frame (rest.take (4 * wordsOf (decodeAllF fuel rest).1))
              hlen hframe]
          rw [decodeAllF_fuel fuel rest.length rest (by omega) le_rfl] at hIH ⊢
          rw [show decodeAllF rest.length rest = decodeAll rest from rfl] at hIH ⊢
          rw [hIH]

/-- C6: bytecode decoding terminates exactly when the range is exhausted —
decoding succeeds (no error) precisely when the instructions consume every
byte of the range (`4` bytes per instruction word), and when the range ends
inside an instruction the decoder reports an error while the instructions
decoded before the error are exactly the (error-free) decode of the byte
prefix they consumed. -/
theorem bytecode_termination (bs : List Nat) :
    ((decodeAll bs).2 = none ↔ 4 * wordsOf (decodeAll bs).1 = bs.length) ∧
    ((decodeAll bs).2.isSome = true →
      decodeAll (bs.take (4 * wordsOf (decodeAll bs).1)) = ((decodeAll bs).1, none)) :=
  ⟨decodeAllF_exhaust bs.length bs le_rfl, decodeAllF_prior bs.length bs le_rfl⟩

/-- Witness for C6: a 6-byte range — one complete 4-byte instruction followed
by 2 trailing bytes — errors, and the instruction decoded before the error is
the decode of the consumed 4-byte prefix. -/
theorem bytecode_termination_witness :
    decodeAll (([0, 0, 0, 0, 9, 9] : List Nat).take
        (4 * wordsOf (decodeAll [0, 0, 0, 0, 9, 9]).1)) =
      ((decodeAll [0, 0, 0, 0, 9, 9]).1, none) :=
  (bytecode_termination [0, 0, 0, 0, 9, 9]).2 (by decide)

/-- C8: `GmString` parsing succeeds exactly when the u32 length `L`, `L`
character bytes of valid (strict) UTF-8 and a `0x00` terminator byte are all
present; on success the value is exactly the `L` character bytes; and when
everything up to the terminator is in place but the byte after the `L`
character bytes is not `0x00`, parsing fails with the malformed-string
error. -/
theorem gm_string_roundtrip (bs : List Nat) :
    ((parseGmString bs).isOk = true ↔ gmWf bs) ∧
    (gmWf bs → parseGmString bs = .ok ⟨gmLen bs, gmChars bs⟩) ∧
    (∀ t : Nat, 4 + gmLen bs + 1 ≤ bs.length → utf8Valid (gmChars bs) = true →
      gmTerm bs = some t → t ≠ 0 → parseGmString bs = .error .malformedString) := by
  rcases bs with _ | ⟨a, _ | ⟨b, _ | ⟨c, _ | ⟨d, r⟩⟩⟩⟩
  · exact ⟨by simp [parseGmString, gmWf, Except.isOk, Except.toBool],
      fun hwf => absurd hwf.1 (by simp),
      fun t h1 h2 h3 h4 => absurd h1 (by simp <;> omega)⟩
  · exact ⟨by simp [parseGmString, gmWf, Except.isOk, Except.toBool],
      fun hwf => absurd hwf.1 (by simp),
      fun t h1 h2 h3 h4 => absurd h1 (by simp <;> omega)⟩
  · exact ⟨by simp [parseGmString, gmWf, Except.isOk, Except.toBool],
      fun hwf => absurd hwf.1 (by simp),
      fun t h1 h2 h3 h4 => absurd h1 (by simp <;> omega)⟩
  · exact ⟨by simp [parseGmString, gmWf, Except.isOk, Except.toBool],
      fun hwf => absurd hwf.1 (by simp),
      fun t h1 h2 h3 h4 => absurd h1 (by simp <;> omega)⟩
  have hlen4 : gmLen (a :: b :: c :: d :: r) = le32 a b c d := by
    simp [gmLen, byteAt, List.getD_cons_zero, List.getD_cons_succ]
  have hchars : gmChars (a :: b :: c :: d :: r) = r.take (le32 a b c d) := by
    unfold gmChars
    rw [hlen4]
    rfl
  have hterm : gmTerm (a :: b :: c :: d :: r) = (r.drop (le32 a b c d)).head? := by
    unfold gmTerm
    rw [hlen4, ← List.drop_drop]
    rfl
  refine ⟨?_, ?_, ?_⟩
  · simp only [parseGmString]
    by_cases hl : le32 a b c d ≤ r.length
    · rw [if_pos hl]
      by_cases hu : utf8Valid (r.take (le32 a b c d)) = true
      · rw [if_pos hu]
        cases hdrop : r.drop (le32 a b c d) with
        | nil =>
          have hge : r.length ≤ le32 a b c d := by
            have hcon := congrArg List.length hdrop
            simp only [List.length_drop, List.length_nil] at hcon
            omega
          simp only [Except.isOk, Except.toBool, gmWf, hlen4, hterm, hdrop,
            List.head?_nil, List.length_cons]
          constructor
          · intro hcon; exact Bool.noConfusion hcon
          · intro hcon; exact Option.noConfusion hcon.2.2.2
        | cons t0 tl =>
          have hlt : le32 a b c d < r.length := by
            have hcon := congrArg List.length hdrop
            simp only [List.length_drop, List.length_cons] at hcon
            omega
          by_cases ht0 : t0 = 0
          · subst ht0
            simp only [if_true, Except.isOk, Except.toBool, gmWf, hlen4, hchars,
              hterm, hdrop, List.head?_cons, List.length_cons]
            simp only [hu]
            constructor
            · exact fun _ => ⟨by omega, by omega, trivial, trivial⟩
            · exact fun _ => trivial
          · simp only [ht0, if_false, Except.isOk, Except.toBool, gmWf, hlen4,
              hterm, hdrop, List.head?_cons]
            constructor
            · intro hcon; exact Bool.noConfusion hcon
            · intro hcon
              have h00 := hcon.2.2.2
              injection h00 with h0
              exact absurd h0 ht0
      · rw [if_neg hu]
        simp only [Except.isOk, Except.toBool, gmWf, hlen4, hchars]
        constructor
        · intro hcon; exact Bool.noConfusion hcon
        · intro hcon; exact absurd hcon.2.2.1 hu
    · rw [if_neg hl]
      simp only [Except.isOk, Except.toBool, gmWf, hlen4, List.length_cons]
      constructor
      · intro hcon; exact Bool.noConfusion hcon
      · intro hcon
        exact absurd hcon.2.1 (by omega)
  · intro hwf
    obtain ⟨h4, hlen1, hu, hterm0⟩ := hwf
    rw [hlen4] at hlen1
    rw [hchars] at hu
    rw [hterm] at hterm0
    simp only [List.length_cons] at hlen1
    have hl : le32 a b c d ≤ r.length := by omega
    cases hdrop : r.drop (le32 a b c d) with
    | nil => rw [hdrop] at hterm0; exact Option.noConfusion hterm0
    | cons t0 tl =>
      rw [hdrop] at hterm0
      simp only [List.head?_cons] at hterm0
      injection hterm0 with ht0
      subst ht0
      simp only [parseGmString, hl, if_true, hu, hdrop, if_true]
      rw [hlen4, hchars]
  · intro t h1 h2 h3 h4
    rw [hlen4] at h1
    rw [hchars] at h2
    rw [hterm] at h3
    simp only [List.length_cons] at h1
    have hl : le32 a b c d ≤ r.length := by omega
    cases hdrop : r.drop (le32 a b c d) with
    | nil => rw [hdrop] at h3; exact Option.noConfusion h3
    | cons t0 tl =>
      rw [hdrop] at h3
      simp only [List.head?_cons] at h3
      injection h3 with ht0
      subst ht0
      simp only [parseGmString, hl, if_true, h2, hdrop, h4, if_false]

/-- Witness for C8: the well-formed string `"ABC"` parses to its three
character bytes, and a string whose terminator byte is `7` instead of `0`
fails with the malformed-string error. -/
theorem gm_string_roundtrip_witness :
    parseGmString [3, 0, 0, 0, 65, 66, 67, 0] = .ok ⟨3, [65, 66, 67]⟩ ∧
    parseGmString [1, 0, 0, 0, 65, 7] = .error .malformedString :=
  ⟨(gm_string_roundtrip [3, 0, 0, 0, 65, 66, 67, 0]).2.1
      ⟨by decide, by decide, by decide, by decide⟩,
   (gm_string_roundtrip [1, 0, 0, 0, 65, 7]).2.2 7 (by decide) (by decide)
      (by decide) (by decide)⟩

theorem specExtraWords_push {w : Nat}
    (hop : opcodeOf w = 192 ∨ opcodeOf w = 193 ∨ opcodeOf w = 194 ∨ opcodeOf w = 195)
    (ht : type1Of w = 0 ∨ type1Of w = 1 ∨ type1Of w = 2 ∨ type1Of w = 3 ∨
      type1Of w = 4 ∨ type1Of w = 5 ∨ type1Of w = 6 ∨ type1Of w = 15) :
    specExtraWords w = pushTailWords (type1Of w) := by
  unfold specExtraWords pushTailWords
  have h1 : opcodeOf w ≠ 255 := by rcases hop with h | h | h | h <;> omega
  have h2 : opcodeOf w ≠ 217 := by rcases hop with h | h | h | h <;> omega
  have h3 : opcodeOf w ≠ 69 := by rcases hop with h | h | h | h <;> omega
  have h4 : opcodeOf w ≠ 132 := by rcases hop with h | h | h | h <;> omega
  rw [if_neg h1, if_neg h2, if_neg h3, if_neg h4, if_pos hop]
  rcases ht with h | h | h | h | h | h | h | h <;> simp [h]

theorem rdWords_append :
    ∀ (k : Nat) (ex rest : List Nat), ex.length = 4 * k →
      rdWords k (ex ++ rest) = some (bytesToWords ex, rest) := by
  intro k
  induction k with
  | zero =>
    intro ex rest hl
    have hex : ex = [] := List.eq_nil_of_length_eq_zero (by omega)
    subst hex
    rfl
  | succ k ih =>
    intro ex rest hl
    rcases ex with _ | ⟨a, ex1⟩
    · simp at hl
    rcases ex1 with _ | ⟨b, ex2⟩
    · simp at hl; omega
    rcases ex2 with _ | ⟨c, ex3⟩
    · simp at hl; omega
    rcases ex3 with _ | ⟨d, ex4⟩
    · simp at hl; omega
    have hl' : ex4.length = 4 * k := by
      simp only [List.length_cons] at hl
      omega
    simp only [List.cons_append, rdWords, List.append_eq]
    rw [ih ex4 rest hl']
    rfl

/-- C1: the intended v15+ decoder consumes the type1-determined operand tail
of `Push`/`PushLoc`/`PushGlb`/`PushBltn` — two extra words for Double/Int64,
one for Float/Int32/Bool/Variable/String, none for Int16 — and decoding the
12-byte S4 input (word `0xC0000000` followed by π as f64 LE) yields exactly
one `Push` instruction (opcode 192, type1 Double) whose 64-bit operand is the
bit pattern `0x400921FB54442D18`, the IEEE 754 binary64 value within half an
ulp of (hence rounded from) the decimal `3.141592653589793`. -/
theorem push_operand_words :
    (∀ (w : Nat) (ex rest : List Nat),
      w < 4294967296 →
      (opcodeOf w = 192 ∨ opcodeOf w = 193 ∨ opcodeOf w = 194 ∨ opcodeOf w = 195) →
      (type1Of w = 0 ∨ type1Of w = 1 ∨ type1Of w = 2 ∨ type1Of w = 3 ∨
       type1Of w = 4 ∨ type1Of w = 5 ∨ type1Of w = 6 ∨ type1Of w = 15) →
      ex.length = 4 * pushTailWords (type1Of w) →
      specDecodeInstr (u32Bytes w ++ (ex ++ rest)) = some (⟨w, bytesToWords ex⟩, rest)) ∧
    specDecodeAll [0x00, 0x00, 0x00, 0xC0, 0x18, 0x2D, 0x44, 0x54, 0xFB, 0x21, 0x09, 0x40] =
      ([⟨0xC0000000, [0x54442D18, 0x400921FB]⟩], none) ∧
    opcodeOf 0xC0000000 = 192 ∧ type1Of 0xC0000000 = 0 ∧
    SpecInstr.operand64 ⟨0xC0000000, [0x54442D18, 0x400921FB]⟩ = 0x400921FB54442D18 ∧
    f64ValOfBits 0x400921FB54442D18 = (4503599627370496 + 0x921FB54442D18 : ℚ) / 2 ^ 51 ∧
    (3141592653589793 : ℚ) / 10 ^ 15 - 1 / 2 ^ 52 <
      (4503599627370496 + 0x921FB54442D18 : ℚ) / 2 ^ 51 ∧
    (4503599627370496 + 0x921FB54442D18 : ℚ) / 2 ^ 51 <
      (3141592653589793 : ℚ) / 10 ^ 15 + 1 / 2 ^ 52 := by
  refine ⟨?_, by decide, by decide, by decide, by decide,
    by norm_num [f64ValOfBits], by norm_num, by norm_num⟩
  intro w ex rest hw hop ht hlen
  simp only [u32Bytes, List.cons_append, List.nil_append, specDecodeInstr]
  rw [le32_u32Bytes w hw, specExtraWords_push hop ht,
    rdWords_append (pushTailWords (type1Of w)) ex rest hlen]

/-- Witness for C1 at the S4 instruction word and operand bytes. -/
theorem push_operand_words_witness :
    specDecodeInstr (u32Bytes 0xC0000000 ++
        ([0x18, 0x2D, 0x44, 0x54, 0xFB, 0x21, 0x09, 0x40] ++ [])) =
      some (⟨0xC0000000, bytesToWords [0x18, 0x2D, 0x44, 0x54, 0xFB, 0x21, 0x09, 0x40]⟩, []) :=
  push_operand_words.1 0xC0000000 [0x18, 0x2D, 0x44, 0x54, 0xFB, 0x21, 0x09, 0x40] []
    (by decide) (by decide) (by decide) (by decide)

theorem findFormAux_first (bs : List Nat) (k : Nat) (hk : formCand bs k = true)
    (hbefore : ∀ j, j < k → formCand bs j = false) :
    ∀ (fuel i : Nat), i ≤ k → k < i + fuel → findFormAux bs fuel i = some k := by
  intro fuel
  induction fuel with
  | zero => intro i h1 h2; omega
  | succ fuel ih =>
    intro i h1 h2
    by_cases hik : i = k
    · subst hik
      simp [findFormAux, hk]
    · have hi : formCand bs i = false := hbefore i (by omega)
      simp only [findFormAux, hi, Bool.false_eq_true, if_false]
      exact ih (i + 1) (by omega) (by omega)

theorem findForm_first (bs : List Nat) (k : Nat) (hk : formCand bs k = true)
    (hbefore : ∀ j, j < k → formCand bs j = false) (hlt : k < bs.length) :
    findForm bs = some k :=
  findFormAux_first bs k hk hbefore bs.length 0 (Nat.zero_le k) (by omega)

/-- Declared size field of a FORM header at the start of a buffer. -/
def declaredSize (bs : List Nat) : Nat :=
  le32 (byteAt bs 4) (byteAt bs 5) (byteAt bs 6) (byteAt bs 7)

theorem byteAt_append (pre suf : List Nat) (j : Nat) :
    byteAt (pre ++ suf) (pre.length + j) = byteAt suf j := by
  unfold byteAt
  rw [List.getD_append_right pre suf 0 (pre.length + j) (by omega)]
  simp

/-- C3: for a buffer made of a prefix containing no scan candidate followed
by a valid FORM container whose declared size fits, `parse_container` locates
the FORM magic at the prefix boundary, parses the suffix exactly as parsing
it alone would, and exposes the prefix length as the base offset. -/
theorem pe_envelope_scan (pre suf : List Nat) (c : Container)
    (hpre : ∀ j, j < pre.length → formCand (pre ++ suf) j = false)
    (hsuf : parseGameMakerData suf = .ok c)
    (hsize : declaredSize suf + 8 ≤ suf.length) :
    parse_container (pre ++ suf) = .ok (pre.length, c) := by
  have hsuf2 := hsuf
  unfold parseGameMakerData at hsuf2
  split at hsuf2
  case h_2 => exact Except.noConfusion hsuf2
  case h_1 m0 m1 m2 m3 rest =>
    split at hsuf2
    case isFalse => exact Except.noConfusion hsuf2
    case isTrue hm =>
      split at hsuf2
      case h_2 => exact Except.noConfusion hsuf2
      case h_1 s0 s1 s2 s3 rest2 =>
        have hm4 : m0 = 70 ∧ m1 = 79 ∧ m2 = 82 ∧ m3 = 77 := by
          simpa using hm
        obtain ⟨hm0, hm1, hm2, hm3⟩ := hm4
        subst hm0; subst hm1; subst hm2; subst hm3
        have hds : declaredSize
            (70 :: 79 :: 82 :: 77 :: s0 :: s1 :: s2 :: s3 :: rest2) =
            le32 s0 s1 s2 s3 := by
          simp [declaredSize, byteAt]
        rw [hds] at hsize
        simp only [List.length_cons] at hsize
        have hcand : formCand
            (pre ++ 70 :: 79 :: 82 :: 77 :: s0 :: s1 :: s2 :: s3 :: rest2)
            pre.length = true := by
          have hb : ∀ j : Nat, byteAt
              (pre ++ 70 :: 79 :: 82 :: 77 :: s0 :: s1 :: s2 :: s3 :: rest2)
              (pre.length + j) =
              byteAt (70 :: 79 :: 82 :: 77 :: s0 :: s1 :: s2 :: s3 :: rest2) j :=
            fun j => byteAt_append pre _ j
          have hb0 := hb 0
          have hb1 := hb 1
          have hb2 := hb 2
          have hb3 := hb 3
          have hb4 := hb 4
          have hb5 := hb 5
          have hb6 := hb 6
          have hb7 := hb 7
          simp only [Nat.add_zero] at hb0
          simp only [formCand, Bool.and_eq_true, beq_iff_eq, decide_eq_true_eq]
          refine ⟨⟨⟨⟨⟨?_, ?_⟩, ?_⟩, ?_⟩, ?_⟩, ?_⟩
          · simp only [List.length_append, List.length_cons]
            omega
          · rw [hb0]; rfl
          · rw [hb1]; rfl
          · rw [hb2]; rfl
          · rw [hb3]; rfl
          · rw [hb4, hb5, hb6, hb7]
            have hbv : byteAt (70 :: 79 :: 82 :: 77 :: s0 :: s1 :: s2 :: s3 :: rest2) 4 = s0 ∧
                byteAt (70 :: 79 :: 82 :: 77 :: s0 :: s1 :: s2 :: s3 :: rest2) 5 = s1 ∧
                byteAt (70 :: 79 :: 82 :: 77 :: s0 :: s1 :: s2 :: s3 :: rest2) 6 = s2 ∧
                byteAt (70 :: 79 :: 82 :: 77 :: s0 :: s1 :: s2 :: s3 :: rest2) 7 = s3 := by
              refine ⟨rfl, rfl, rfl, rfl⟩
            rw [hbv.1, hbv.2.1, hbv.2.2.1, hbv.2.2.2]
            simp only [List.length_append, List.length_cons]
            omega
        have hfind := findForm_first
          (pre ++ 70 :: 79 :: 82 :: 77 :: s0 :: s1 :: s2 :: s3 :: rest2)
          pre.length hcand hpre
          (by simp only [List.length_append, List.length_cons]; omega)
        unfold parse_container
        rw [hfind]
        dsimp only
        rw [List.drop_left, hsuf]
        rfl

set_option maxRecDepth 100000 in
/-- Witness for C3 (scenario S2): 256 bytes of zeros followed by a minimal
FORM container parse to that container with base offset 256. -/
theorem pe_envelope_scan_witness :
    parse_container (List.replicate 256 0 ++ [70, 79, 82, 77, 0, 0, 0, 0]) =
      .ok (256, ⟨0, []⟩) := by
  have h := pe_envelope_scan (List.replicate 256 0) [70, 79, 82, 77, 0, 0, 0, 0]
    ⟨0, []⟩ (by decide) (by decide) (by decide)
  simpa using h

theorem range'_split (s a b : Nat) :
    List.range' s (a + b) = List.range' s a ++ List.range' (s + a) b := by
  have h := List.range'_append s a b 1
  simp only [Nat.one_mul] at h
  rw [Nat.add_comm b a] at h
  exact h.symm

theorem gapLengths_sum (L : Nat) :
    ∀ (o : Nat) (os : List Nat), List.Chain (· ≤ ·) o os → (∀ x ∈ o :: os, x ≤ L) →
      (gapLengths L (o :: os)).sum = L - o := by
  intro o os
  induction os generalizing o with
  | nil =>
    intro _ _
    simp [gapLengths]
  | cons o₂ os ih =>
    intro hch hle
    obtain ⟨h12, hch2⟩ := List.chain_cons.mp hch
    have hle2 : ∀ x ∈ o₂ :: os, x ≤ L := fun x hx => hle x (List.mem_cons_of_mem o hx)
    have h2L : o₂ ≤ L := hle2 o₂ (List.mem_cons_self _ _)
    simp only [gapLengths, List.sum_cons, ih o₂ hch2 hle2]
    omega

theorem gapLengths_cover (L : Nat) :
    ∀ (o : Nat) (os : List Nat), List.Chain (· ≤ ·) o os → (∀ x ∈ o :: os, x ≤ L) →
      ((o :: os).zip (gapLengths L (o :: os))).flatMap (fun p => List.range' p.1 p.2) =
        List.range' o (L - o) := by
  intro o os
  induction os generalizing o with
  | nil =>
    intro _ _
    simp [gapLengths]
  | cons o₂ os ih =>
    intro hch hle
    obtain ⟨h12, hch2⟩ := List.chain_cons.mp hch
    have hle2 : ∀ x ∈ o₂ :: os, x ≤ L := fun x hx => hle x (List.mem_cons_of_mem o hx)
    have h2L : o₂ ≤ L := hle2 o₂ (List.mem_cons_self _ _)
    simp only [gapLengths, List.zip_cons_cons, List.flatMap_cons, ih o₂ hch2 hle2]
    rw [show L - o = (o₂ - o) + (L - o₂) from by omega, range'_split,
      show o + (o₂ - o) = o₂ from by omega]

theorem gapLengths_partition (L : Nat) (offs : List Nat)
    (hsorted : offs.Sorted (· ≤ ·)) (h0 : 0 ∈ offs) (hle : ∀ x ∈ offs, x ≤ L) :
    (gapLengths L offs).sum = L ∧
    (offs.zip (gapLengths L offs)).flatMap (fun p => List.range' p.1 p.2) =
      List.range L := by
  cases offs with
  | nil => simp at h0
  | cons o os =>
    have hhead : o = 0 := by
      rcases List.mem_cons.mp h0 with h | h
      · exact h.symm
      · have h2 := (List.sorted_cons.mp hsorted).1 0 h
        omega
    subst hhead
    have hchain : List.Chain (· ≤ ·) 0 os := List.chain_iff_pairwise.mpr hsorted
    constructor
    · rw [gapLengths_sum L 0 os hchain hle]
      omega
    · rw [gapLengths_cover L 0 os hchain hle, List.range_eq_range', Nat.sub_zero]

/-- C2: for a shared-blob group of V15 code entries whose `offset_in_blob`
multiset contains 0 and stays within `blob_length`, the gap-computed lengths
(after sorting by `offset_in_blob` ascending) sum to `blob_length` and the
entries' half-open ranges, in sorted order, tile `[0, blob_length)` exactly;
concretely, offsets `{0, 16, 28}` with blob length 40 give lengths
`{16, 12, 12}`. -/
theorem shared_blob_partition :
    (∀ (L : Nat) (g : List CodeEntryV15),
      0 ∈ g.map (·.offset_in_blob) →
      (∀ e ∈ g, e.offset_in_blob ≤ L) →
      (computeGroupLengths L g).sum = L ∧
      ((((g.map (·.offset_in_blob)).insertionSort (· ≤ ·)).zip
          (computeGroupLengths L g)).flatMap (fun p => List.range' p.1 p.2) =
        List.range L)) ∧
    computeGroupLengths 40
      [⟨1, 40, 0, 0, 100, 0⟩, ⟨2, 40, 0, 0, 100, 16⟩, ⟨3, 40, 0, 0, 100, 28⟩] =
      [16, 12, 12] := by
  constructor
  · intro L g h0 hle
    have hperm : List.Perm ((g.map (·.offset_in_blob)).insertionSort (· ≤ ·))
        (g.map (·.offset_in_blob)) := List.perm_insertionSort _ _
    have h0' : 0 ∈ (g.map (·.offset_in_blob)).insertionSort (· ≤ ·) :=
      hperm.mem_iff.mpr h0
    have hle' : ∀ x ∈ (g.map (·.offset_in_blob)).insertionSort (· ≤ ·), x ≤ L := by
      intro x hx
      obtain ⟨e, he, hxe⟩ := List.mem_map.mp (hperm.subset hx)
      exact hxe ▸ hle e he
    exact gapLengths_partition L _ (List.sorted_insertionSort _ _) h0' hle'
  · decide

/-- Witness for C2 at the three S3 entries (shared blob of length 40,
offsets 0, 16, 28). -/
theorem shared_blob_partition_witness :
    (computeGroupLengths 40
        [⟨1, 40, 0, 0, 100, 0⟩, ⟨2, 40, 0, 0, 100, 16⟩, ⟨3, 40, 0, 0, 100, 28⟩]).sum = 40 ∧
    (((([⟨1, 40, 0, 0, 100, 0⟩, ⟨2, 40, 0, 0, 100, 16⟩,
          ⟨3, 40, 0, 0, 100, 28⟩] : List CodeEntryV15).map
            (·.offset_in_blob)).insertionSort (· ≤ ·)).zip
        (computeGroupLengths 40
          [⟨1, 40, 0, 0, 100, 0⟩, ⟨2, 40, 0, 0, 100, 16⟩,
           ⟨3, 40, 0, 0, 100, 28⟩])).flatMap (fun p => List.range' p.1 p.2) =
      List.range 40 :=
  shared_blob_partition.1 40
    [⟨1, 40, 0, 0, 100, 0⟩, ⟨2, 40, 0, 0, 100, 16⟩, ⟨3, 40, 0, 0, 100, 28⟩]
    (by decide) (by decide)
